import Mathlib

set_option maxHeartbeats 1000000

/-- Step count carried by a move instruction. Modelled from the spec: a
non-negative step count (the source type Count lives in the common crate,
outside src). -/
abbrev Count := Nat

/-- Modelled from the spec: the leaf instruction vocabulary consumed by the
analysis (the Instruction enum lives in the common crate, outside src); the
constructor names follow the match arms in src/src/jit/analysis.rs. -/
inductive Instruction
  | Right (count : Count)
  | Left (count : Count)
  | Add (amount : Nat)
  | In
  | Out
  | JumpZero (target : Nat)
  | JumpNotZero (target : Nat)
  | SetZero
  | OffsetAddRight (offset : Count)
  | OffsetAddLeft (offset : Count)
  | FindZeroRight (skip : Count)
  | FindZeroLeft (skip : Count)
  deriving DecidableEq

/-- Modelled from the spec: a structured statement tree (the Statement type
lives in the peephole crate, outside src). The Loop constructor carries an
explicit index modelling the stable loop identity that the source derives
from the memory address of the loop body (spec section 9). -/
inductive Statement
  | Instr (i : Instruction)
  | Loop (index : Nat) (body : List Statement)

/-- The net movement of a loop (LoopBalance in src/src/jit/analysis.rs). -/
inductive LoopBalance
  | Exact (disp : Int)
  | RightOnly
  | LeftOnly
  | Unknown
  deriving DecidableEq

/-- Is the loop body exactly balanced between right and left?
(analysis.rs lines 50 to 52). -/
def LoopBalance.is_balanced (b : LoopBalance) : Bool :=
  decide (b = LoopBalance.Exact 0)

/-- Does the loop move net right, if at all? (analysis.rs lines 55 to 64). -/
def LoopBalance.is_right_only : LoopBalance → Bool
  | LoopBalance.Exact disp => decide (disp ≥ 0)
  | LoopBalance.RightOnly => true
  | LoopBalance.LeftOnly => false
  | LoopBalance.Unknown => false

/-- Does the loop move net left, if at all? (analysis.rs lines 67 to 76). -/
def LoopBalance.is_left_only : LoopBalance → Bool
  | LoopBalance.Exact disp => decide (disp ≤ 0)
  | LoopBalance.RightOnly => false
  | LoopBalance.LeftOnly => true
  | LoopBalance.Unknown => false

/-- Association list modelling the HashMap from loop identity to LoopBalance
(the loop_balances field of the interpreter). -/
abbrev DisplacementMap := List (Nat × LoopBalance)

/-- Lookup models HashMap get: the binding of the key, if any. -/
def lookupB (k : Nat) : DisplacementMap → Option LoopBalance
  | [] => none
  | (a, v) :: rest => if a = k then some v else lookupB k rest

/-- Insert models HashMap insert: replace the value of an existing key in
place, otherwise append the new binding. -/
def insertB (m : DisplacementMap) (k : Nat) (v : LoopBalance) : DisplacementMap :=
  match m with
  | [] => [(k, v)]
  | (a, w) :: rest => if a = k then (a, v) :: rest else (a, w) :: insertB rest k v

/-- The abstract interpreter state (analysis.rs lines 96 to 106). -/
structure AbstractInterpreter where
  left_mark : Nat
  right_mark : Nat
  loop_stack : List (Nat × Nat)
  loop_balances : DisplacementMap
  deriving DecidableEq

/-- Moves the pointer the given distance to the left; returns the updated
state and whether the move provably does not underflow
(analysis.rs lines 205 to 216). -/
def move_left (s : AbstractInterpreter) (count : Count) : AbstractInterpreter × Bool :=
  let s1 := { s with right_mark := s.right_mark + count }
  if count ≤ s1.left_mark then
    ({ s1 with left_mark := s1.left_mark - count }, true)
  else
    ({ s1 with left_mark := 0 }, false)

/-- Moves the pointer the given distance to the right; returns the updated
state and whether the move provably does not overflow
(analysis.rs lines 221 to 232). -/
def move_right (s : AbstractInterpreter) (count : Count) : AbstractInterpreter × Bool :=
  let s1 := { s with left_mark := s.left_mark + count }
  if count ≤ s1.right_mark then
    ({ s1 with right_mark := s1.right_mark - count }, true)
  else
    ({ s1 with right_mark := 0 }, false)

/-- Resets the left mark (analysis.rs lines 237 to 239). -/
def reset_left (s : AbstractInterpreter) : AbstractInterpreter :=
  { s with left_mark := 0 }

/-- Resets the right mark (analysis.rs lines 244 to 246). -/
def reset_right (s : AbstractInterpreter) : AbstractInterpreter :=
  { s with right_mark := 0 }

/-- Resets both marks (analysis.rs lines 195 to 198). -/
def reset (s : AbstractInterpreter) : AbstractInterpreter :=
  reset_right (reset_left s)

/-- Updates the marks upon entering the loop with the given identity and
pushes the resulting pair onto the loop stack (analysis.rs lines 249 to 265). -/
def enter_loop (s : AbstractInterpreter) (index : Nat) : AbstractInterpreter :=
  let s1 :=
    match lookupB index s.loop_balances with
    | some balance =>
        if balance.is_balanced then s
        else if balance.is_right_only then reset_right s
        else if balance.is_left_only then reset_left s
        else reset s
    | none => reset s
  { s1 with loop_stack := (s1.left_mark, s1.right_mark) :: s1.loop_stack }

/-- Pops the most recently pushed pair and overwrites both marks with it;
none models the fatal abort on an empty stack (analysis.rs lines 268 to 273). -/
def leave_loop (s : AbstractInterpreter) : Option AbstractInterpreter :=
  match s.loop_stack with
  | [] => none
  | (l, r) :: rest =>
      some { s with left_mark := l, right_mark := r, loop_stack := rest }

/-- One step of the balance computation of analyze for a leaf instruction
(analysis.rs lines 148 to 173); none models the fatal abort on a raw jump
instruction (analysis.rs lines 164 to 165). -/
def transferInstr (net : LoopBalance) : Instruction → Option LoopBalance
  | Instruction.Right count =>
      some (match net with
            | LoopBalance.Exact disp => LoopBalance.Exact (disp + (count : Int))
            | LoopBalance.RightOnly => LoopBalance.RightOnly
            | _ => LoopBalance.Unknown)
  | Instruction.Left count =>
      some (match net with
            | LoopBalance.Exact disp => LoopBalance.Exact (disp - (count : Int))
            | LoopBalance.LeftOnly => LoopBalance.LeftOnly
            | _ => LoopBalance.Unknown)
  | Instruction.Add _ => some net
  | Instruction.In => some net
  | Instruction.Out => some net
  | Instruction.JumpZero _ => none
  | Instruction.JumpNotZero _ => none
  | Instruction.SetZero => some net
  | Instruction.OffsetAddRight _ => some net
  | Instruction.OffsetAddLeft _ => some net
  | Instruction.FindZeroRight _ =>
      some (if net.is_right_only then LoopBalance.RightOnly else LoopBalance.Unknown)
  | Instruction.FindZeroLeft _ =>
      some (if net.is_left_only then LoopBalance.LeftOnly else LoopBalance.Unknown)

/-- Combination of the running balance with the balance of a nested loop
(analysis.rs lines 181 to 186). -/
def combineLoop (net bodyBalance : LoopBalance) : LoopBalance :=
  match net with
  | LoopBalance.Exact disp =>
      if bodyBalance.is_balanced then LoopBalance.Exact disp
      else if (LoopBalance.Exact disp).is_right_only && bodyBalance.is_right_only then
        LoopBalance.RightOnly
      else if (LoopBalance.Exact disp).is_left_only && bodyBalance.is_left_only then
        LoopBalance.LeftOnly
      else LoopBalance.Unknown
  | other =>
      if other.is_right_only && bodyBalance.is_right_only then LoopBalance.RightOnly
      else if other.is_left_only && bodyBalance.is_left_only then LoopBalance.LeftOnly
      else LoopBalance.Unknown

/-- The main loop of analyze (analysis.rs lines 141 to 192), threading the
running net balance and the balance map through a statement list; none
models the fatal abort on a raw jump instruction. -/
def analyzeGo (m : DisplacementMap) (net : LoopBalance) :
    List Statement → Option (DisplacementMap × LoopBalance)
  | [] => some (m, net)
  | Statement.Instr i :: rest =>
      match transferInstr net i with
      | none => none
      | some net1 => analyzeGo m net1 rest
  | Statement.Loop index body :: rest =>
      match analyzeGo m (LoopBalance.Exact 0) body with
      | none => none
      | some (m1, bodyBalance) =>
          analyzeGo (insertB m1 index bodyBalance) (combineLoop net bodyBalance) rest

/-- Computes the net movement of a statement sequence, starting from a
running balance of Exact 0, while recording the balances of the nested
loops it walks (analysis.rs lines 141 to 192). -/
def analyze (m : DisplacementMap) (statements : List Statement) :
    Option (DisplacementMap × LoopBalance) :=
  analyzeGo m (LoopBalance.Exact 0) statements

/-- Walks the top level of the program, recording a balance for every top
level loop; instructions at the top level are skipped
(analysis.rs lines 129 to 139). -/
def analyze_program (m : DisplacementMap) : List Statement → Option DisplacementMap
  | [] => some m
  | Statement.Instr _ :: rest => analyze_program m rest
  | Statement.Loop index body :: rest =>
      match analyze m body with
      | none => none
      | some (m1, balance) => analyze_program (insertB m1 index balance) rest

/-- Initializes the interpreter and, when checked, first runs the loop
analysis on the program (analysis.rs lines 114 to 127); none models a fatal
abort during the analysis. -/
def AbstractInterpreter.new (program : List Statement) (checked : Bool) :
    Option AbstractInterpreter :=
  let result : AbstractInterpreter :=
    { left_mark := 0, right_mark := 0, loop_stack := [], loop_balances := [] }
  if checked then
    match analyze_program result.loop_balances program with
    | none => none
    | some m => some { result with loop_balances := m }
  else
    some result

/-- Is this instruction one of the raw conditional jumps? -/
def isJump : Instruction → Bool
  | Instruction.JumpZero _ => true
  | Instruction.JumpNotZero _ => true
  | _ => false

/-- Does the statement list contain a raw jump instruction anywhere,
including inside nested loop bodies? -/
def containsJump : List Statement → Bool
  | [] => false
  | Statement.Instr i :: rest => isJump i || containsJump rest
  | Statement.Loop _ body :: rest => containsJump body || containsJump rest

/-- Does some loop of the program contain a raw jump instruction anywhere in
its body, at any depth? Jumps outside every loop body are not counted. -/
def hasLoopJump : List Statement → Bool
  | [] => false
  | Statement.Instr _ :: rest => hasLoopJump rest
  | Statement.Loop _ body :: rest => containsJump body || hasLoopJump rest

/-- Total version of transferInstr used by the pure balance function; the
value at a raw jump is irrelevant because analyze aborts there. -/
def transferInstrTotal (net : LoopBalance) (i : Instruction) : LoopBalance :=
  (transferInstr net i).getD LoopBalance.Unknown

/-- Pure balance function: the net balance that analyze computes on a jump
free statement list. -/
def balGo (net : LoopBalance) : List Statement → LoopBalance
  | [] => net
  | Statement.Instr i :: rest => balGo (transferInstrTotal net i) rest
  | Statement.Loop _ body :: rest =>
      balGo (combineLoop net (balGo (LoopBalance.Exact 0) body)) rest

/-- The ordered list of bindings that analyze inserts into the balance map
while walking a statement list. -/
def traceGo : List Statement → List (Nat × LoopBalance)
  | [] => []
  | Statement.Instr _ :: rest => traceGo rest
  | Statement.Loop index body :: rest =>
      traceGo body ++ ((index, balGo (LoopBalance.Exact 0) body) :: traceGo rest)

/-- The ordered list of bindings that analyze_program inserts into the
balance map while walking the top level of the program. -/
def traceProg : List Statement → List (Nat × LoopBalance)
  | [] => []
  | Statement.Instr _ :: rest => traceProg rest
  | Statement.Loop index body :: rest =>
      traceGo body ++ ((index, balGo (LoopBalance.Exact 0) body) :: traceProg rest)

/-- The identities of all loop nodes reachable in a statement list, at every
nesting depth. -/
def loopIds : List Statement → List Nat
  | [] => []
  | Statement.Instr _ :: rest => loopIds rest
  | Statement.Loop index body :: rest => index :: (loopIds body ++ loopIds rest)

/-- Applies a list of bindings to a map, in order, by insertB. -/
def applyT (m : DisplacementMap) (tr : List (Nat × LoopBalance)) : DisplacementMap :=
  tr.foldl (fun acc kv => insertB acc kv.1 kv.2) m

/-- The value of the last binding of a key in a binding list, if any. -/
def lastVal (k : Nat) : List (Nat × LoopBalance) → Option LoopBalance
  | [] => none
  | (a, v) :: rest =>
      match lastVal k rest with
      | some w => some w
      | none => if a = k then some v else none

/-- Extensional equality of displacement maps, the equality HashMap uses. -/
def mapEquiv (m1 m2 : DisplacementMap) : Prop :=
  ∀ k, lookupB k m1 = lookupB k m2

/-- A mark mutating call made between loop entry and loop exit: move left,
move right, reset left, reset right, or reset both. -/
inductive MarkOp
  | ml (count : Count)
  | mr (count : Count)
  | rl
  | rr
  | rst

/-- Applies a sequence of mark mutating calls to the interpreter state. -/
def applyOps (s : AbstractInterpreter) : List MarkOp → AbstractInterpreter
  | [] => s
  | MarkOp.ml c :: rest => applyOps (move_left s c).1 rest
  | MarkOp.mr c :: rest => applyOps (move_right s c).1 rest
  | MarkOp.rl :: rest => applyOps (reset_left s) rest
  | MarkOp.rr :: rest => applyOps (reset_right s) rest
  | MarkOp.rst :: rest => applyOps (reset s) rest

theorem lookupB_insertB (m : DisplacementMap) (k a : Nat) (v : LoopBalance) :
    lookupB k (insertB m a v) = if a = k then some v else lookupB k m := by
  induction m with
  | nil =>
    by_cases hak : a = k <;> simp [insertB, lookupB, hak]
  | cons hd tl ih =>
    obtain ⟨b, w⟩ := hd
    by_cases hba : b = a
    · subst hba
      by_cases hbk : b = k <;> simp [insertB, lookupB, hbk]
    · by_cases hbk : b = k
      · subst hbk
        have hak : ¬ a = b := fun h => hba h.symm
        simp [insertB, lookupB, hba, hak]
      · simp [insertB, lookupB, hba, hbk, ih]

theorem applyT_cons (m : DisplacementMap) (kv : Nat × LoopBalance)
    (tr : List (Nat × LoopBalance)) :
    applyT m (kv :: tr) = applyT (insertB m kv.1 kv.2) tr := rfl

theorem applyT_append (m : DisplacementMap) (t1 t2 : List (Nat × LoopBalance)) :
    applyT m (t1 ++ t2) = applyT (applyT m t1) t2 := by
  simp [applyT, List.foldl_append]

theorem lookupB_applyT (tr : List (Nat × LoopBalance)) :
    ∀ m k, lookupB k (applyT m tr) =
      match lastVal k tr with
      | some w => some w
      | none => lookupB k m := by
  induction tr with
  | nil => intro m k; simp [applyT, lastVal]
  | cons kv tl ih =>
    intro m k
    obtain ⟨a, v⟩ := kv
    rw [applyT_cons, ih]
    cases hlv : lastVal k tl with
    | some w => simp [lastVal, hlv]
    | none =>
      simp only [lastVal, hlv]
      rw [lookupB_insertB]
      by_cases hak : a = k <;> simp [hak]

theorem lastVal_isSome_of_mem (tr : List (Nat × LoopBalance)) (k : Nat)
    (h : k ∈ tr.map Prod.fst) : (lastVal k tr).isSome = true := by
  induction tr with
  | nil => simp at h
  | cons kv tl ih =>
    obtain ⟨a, v⟩ := kv
    simp only [List.map_cons, List.mem_cons] at h
    cases hlv : lastVal k tl with
    | some w => simp [lastVal, hlv]
    | none =>
      simp only [lastVal, hlv]
      rcases h with h | h
      · simp [h.symm]
      · have hs := ih h
        rw [hlv] at hs
        simp at hs

theorem transferInstr_eq (net : LoopBalance) (i : Instruction) :
    transferInstr net i = if isJump i then none else some (transferInstrTotal net i) := by
  cases i <;> simp [transferInstr, isJump, transferInstrTotal]

theorem analyzeGo_eq (m : DisplacementMap) (net : LoopBalance) (ss : List Statement) :
    analyzeGo m net ss =
      if containsJump ss then none
      else some (applyT m (traceGo ss), balGo net ss) := by
  induction m, net, ss using analyzeGo.induct with
  | case1 m net =>
    simp [analyzeGo, containsJump, traceGo, balGo, applyT]
  | case2 m net i rest hnone =>
    have hj : isJump i = true := by
      by_contra hj
      simp only [Bool.not_eq_true] at hj
      rw [transferInstr_eq, hj] at hnone
      simp at hnone
    simp [analyzeGo, hnone, containsJump, hj]
  | case3 m net i rest net1 hsome ih =>
    have hj : isJump i = false := by
      by_contra hj
      simp only [Bool.not_eq_false] at hj
      rw [transferInstr_eq, hj] at hsome
      simp at hsome
    have hnet1 : net1 = transferInstrTotal net i := by
      rw [transferInstr_eq, hj] at hsome
      simp at hsome
      exact hsome.symm
    simp only [analyzeGo, hsome]
    rw [ih, hnet1]
    simp [containsJump, traceGo, balGo, hj]
  | case4 m net index body rest hnone ihbody =>
    have hcb : containsJump body = true := by
      by_contra hcb
      simp only [Bool.not_eq_true] at hcb
      rw [hnone, hcb] at ihbody
      simp at ihbody
    simp [analyzeGo, hnone, containsJump, hcb]
  | case5 m net index body rest m1 bodyBalance hsome ihbody ihrest =>
    have hcb : containsJump body = false := by
      by_contra hcb
      simp only [Bool.not_eq_false] at hcb
      rw [hsome, hcb] at ihbody
      simp at ihbody
    rw [hsome, hcb] at ihbody
    simp only [Bool.false_eq_true, if_false, Option.some.injEq, Prod.mk.injEq] at ihbody
    obtain ⟨hm1, hbb⟩ := ihbody
    simp only [analyzeGo, hsome]
    rw [ihrest]
    simp only [containsJump, hcb, Bool.false_or]
    by_cases hcr : containsJump rest = true
    · simp [hcr]
    · simp only [Bool.not_eq_true] at hcr
      simp only [hcr, Bool.false_eq_true, if_false]
      rw [traceGo, balGo, applyT_append, applyT_cons, hm1, hbb]

theorem analyze_program_eq (p : List Statement) :
    ∀ m, analyze_program m p =
      if hasLoopJump p then none else some (applyT m (traceProg p)) := by
  induction p with
  | nil => intro m; simp [analyze_program, hasLoopJump, traceProg, applyT]
  | cons hd rest ih =>
    intro m
    cases hd with
    | Instr i => simp [analyze_program, hasLoopJump, traceProg, ih]
    | Loop index body =>
      simp only [analyze_program, analyze]
      rw [analyzeGo_eq]
      by_cases hcb : containsJump body = true
      · simp [hcb, hasLoopJump]
      · simp only [Bool.not_eq_true] at hcb
        simp only [hcb, Bool.false_eq_true, if_false]
        rw [ih]
        simp only [hasLoopJump, hcb, Bool.false_or]
        by_cases hcr : hasLoopJump rest = true
        · simp [hcr]
        · simp only [Bool.not_eq_true] at hcr
          simp only [hcr, Bool.false_eq_true, if_false]
          rw [traceProg, applyT_append, applyT_cons]

theorem loopIds_mem_traceGo (ss : List Statement) :
    ∀ k, k ∈ loopIds ss → k ∈ (traceGo ss).map Prod.fst := by
  induction ss using loopIds.induct with
  | case1 => intro k hk; simp [loopIds] at hk
  | case2 i rest ih =>
    intro k hk
    rw [loopIds] at hk
    rw [traceGo]
    exact ih k hk
  | case3 index body rest ihbody ihrest =>
    intro k hk
    rw [loopIds] at hk
    rw [traceGo]
    simp only [List.mem_cons, List.mem_append] at hk
    simp only [List.map_append, List.map_cons, List.mem_append, List.mem_cons]
    rcases hk with h | h | h
    · exact Or.inr (Or.inl h)
    · exact Or.inl (ihbody k h)
    · exact Or.inr (Or.inr (ihrest k h))

theorem loopIds_mem_traceProg (p : List Statement) :
    ∀ k, k ∈ loopIds p → k ∈ (traceProg p).map Prod.fst := by
  induction p with
  | nil => intro k hk; simp [loopIds] at hk
  | cons hd rest ih =>
    intro k hk
    cases hd with
    | Instr i =>
      rw [loopIds] at hk
      rw [traceProg]
      exact ih k hk
    | Loop index body =>
      rw [loopIds] at hk
      rw [traceProg]
      simp only [List.mem_cons, List.mem_append] at hk
      simp only [List.map_append, List.map_cons, List.mem_append, List.mem_cons]
      rcases hk with h | h | h
      · exact Or.inr (Or.inl h)
      · exact Or.inl (loopIds_mem_traceGo body k h)
      · exact Or.inr (Or.inr (ih k h))

theorem move_left_preserves (s : AbstractInterpreter) (c : Count) :
    (move_left s c).1.loop_stack = s.loop_stack ∧
      (move_left s c).1.loop_balances = s.loop_balances := by
  simp only [move_left]
  split <;> simp

theorem move_right_preserves (s : AbstractInterpreter) (c : Count) :
    (move_right s c).1.loop_stack = s.loop_stack ∧
      (move_right s c).1.loop_balances = s.loop_balances := by
  simp only [move_right]
  split <;> simp

theorem applyOps_preserves (ops : List MarkOp) :
    ∀ s : AbstractInterpreter, (applyOps s ops).loop_stack = s.loop_stack ∧
      (applyOps s ops).loop_balances = s.loop_balances := by
  induction ops with
  | nil => intro s; simp [applyOps]
  | cons op rest ih =>
    intro s
    cases op with
    | ml c =>
      rw [applyOps]
      refine ⟨?_, ?_⟩
      · rw [(ih _).1, (move_left_preserves s c).1]
      · rw [(ih _).2, (move_left_preserves s c).2]
    | mr c =>
      rw [applyOps]
      refine ⟨?_, ?_⟩
      · rw [(ih _).1, (move_right_preserves s c).1]
      · rw [(ih _).2, (move_right_preserves s c).2]
    | rl =>
      rw [applyOps]
      refine ⟨(ih _).1.trans rfl, (ih _).2.trans rfl⟩
    | rr =>
      rw [applyOps]
      refine ⟨(ih _).1.trans rfl, (ih _).2.trans rfl⟩
    | rst =>
      rw [applyOps]
      refine ⟨(ih _).1.trans rfl, (ih _).2.trans rfl⟩

theorem enter_loop_shape (s : AbstractInterpreter) (index : Nat) :
    (enter_loop s index).loop_stack =
      ((enter_loop s index).left_mark, (enter_loop s index).right_mark) :: s.loop_stack ∧
    (enter_loop s index).loop_balances = s.loop_balances := by
  obtain ⟨l, r, st, bal⟩ := s
  simp only [enter_loop]
  cases h : lookupB index bal with
  | none => simp [reset, reset_left, reset_right]
  | some b =>
    by_cases h1 : b.is_balanced = true
    · simp [h1]
    · by_cases h2 : b.is_right_only = true
      · simp [h1, h2, reset_right]
      · by_cases h3 : b.is_left_only = true
        · simp [h1, h2, h3, reset_left]
        · simp [h1, h2, h3, reset, reset_left, reset_right]

theorem leave_loop_of_stack (s : AbstractInterpreter) (l r : Nat)
    (rest : List (Nat × Nat)) (h : s.loop_stack = (l, r) :: rest) :
    leave_loop s = some ⟨l, r, rest, s.loop_balances⟩ := by
  obtain ⟨a, b, st, bal⟩ := s
  simp only at h
  subst h
  rfl

/-- C1: move_left increases right_mark by count and, when count fits under
left_mark, decreases left_mark by count returning true, otherwise zeroes
left_mark returning false; move_right behaves symmetrically with the two
marks swapped; and from marks (0, 0), move_right 5 returns false leaving
marks (5, 0), after which move_left 5 returns true leaving marks (0, 5). -/
theorem move_left_right_spec (s : AbstractInterpreter) (count : Count)
    (stack : List (Nat × Nat)) (bal : DisplacementMap) :
    (move_left s count).1.right_mark = s.right_mark + count ∧
    (count ≤ s.left_mark →
      (move_left s count).1.left_mark = s.left_mark - count ∧
        (move_left s count).2 = true) ∧
    (s.left_mark < count →
      (move_left s count).1.left_mark = 0 ∧ (move_left s count).2 = false) ∧
    (move_right s count).1.left_mark = s.left_mark + count ∧
    (count ≤ s.right_mark →
      (move_right s count).1.right_mark = s.right_mark - count ∧
        (move_right s count).2 = true) ∧
    (s.right_mark < count →
      (move_right s count).1.right_mark = 0 ∧ (move_right s count).2 = false) ∧
    move_right ⟨0, 0, stack, bal⟩ 5 = (⟨5, 0, stack, bal⟩, false) ∧
    move_left ⟨5, 0, stack, bal⟩ 5 = (⟨0, 5, stack, bal⟩, true) := by
  obtain ⟨l, r, st, ba⟩ := s
  refine ⟨?_, ?_, ?_, ?_, ?_, ?_, ?_, ?_⟩
  · simp only [move_left]
    split <;> simp
  · intro h
    simp [move_left, h]
  · intro h
    have h2 : ¬ count ≤ l := Nat.not_le.mpr h
    simp [move_left, h2]
  · simp only [move_right]
    split <;> simp
  · intro h
    simp [move_right, h]
  · intro h
    have h2 : ¬ count ≤ r := Nat.not_le.mpr h
    simp [move_right, h2]
  · simp [move_right]
  · simp [move_left]

theorem move_left_right_spec_witness :
    ((move_left ⟨3, 4, [], []⟩ 2).1.left_mark = 1 ∧ (move_left ⟨3, 4, [], []⟩ 2).2 = true) ∧
    ((move_left ⟨1, 4, [], []⟩ 2).1.left_mark = 0 ∧ (move_left ⟨1, 4, [], []⟩ 2).2 = false) ∧
    ((move_right ⟨0, 7, [], []⟩ 2).1.right_mark = 5 ∧ (move_right ⟨0, 7, [], []⟩ 2).2 = true) ∧
    ((move_right ⟨0, 1, [], []⟩ 2).1.right_mark = 0 ∧ (move_right ⟨0, 1, [], []⟩ 2).2 = false) :=
  ⟨(move_left_right_spec ⟨3, 4, [], []⟩ 2 [] []).2.1 (by decide),
   (move_left_right_spec ⟨1, 4, [], []⟩ 2 [] []).2.2.1 (by decide),
   (move_left_right_spec ⟨0, 7, [], []⟩ 2 [] []).2.2.2.2.1 (by decide),
   (move_left_right_spec ⟨0, 1, [], []⟩ 2 [] []).2.2.2.2.2.1 (by decide)⟩

/-- C10: a move of zero steps is an identity operation that returns true:
move_left 0 and move_right 0 leave the marks, the loop stack and the
displacement map unchanged. -/
theorem move_zero_identity_spec (s : AbstractInterpreter) :
    move_left s 0 = (s, true) ∧ move_right s 0 = (s, true) := by
  constructor <;> simp [move_left, move_right]

/-- C7 counterexample: move_left with count 0 leaves both marks with their
previous values, refuting the claim that every call changes both marks. -/
theorem move_zero_marks_unchanged :
    (move_left ⟨3, 4, [], []⟩ 0).1.left_mark = 3 ∧
    (move_left ⟨3, 4, [], []⟩ 0).1.right_mark = 4 := by
  decide

/-- C7 amended: every call to move_left or move_right is total, returns the
boolean proof signal determined by the relevant mark, applies the exact
conditional mark update rule (move_left adds count to right_mark and sets
left_mark to left_mark minus count when count fits under left_mark and to 0
otherwise; move_right symmetric), and never touches the loop stack or the
displacement map; the values of both marks are left unchanged exactly when
count is 0. -/
theorem move_total_update_spec (s : AbstractInterpreter) (count : Count) :
    (move_left s count).2 = decide (count ≤ s.left_mark) ∧
    (move_right s count).2 = decide (count ≤ s.right_mark) ∧
    (move_left s count).1.right_mark = s.right_mark + count ∧
    ((move_left s count).1.left_mark =
      if count ≤ s.left_mark then s.left_mark - count else 0) ∧
    (move_right s count).1.left_mark = s.left_mark + count ∧
    ((move_right s count).1.right_mark =
      if count ≤ s.right_mark then s.right_mark - count else 0) ∧
    (move_left s count).1.loop_stack = s.loop_stack ∧
    (move_left s count).1.loop_balances = s.loop_balances ∧
    (move_right s count).1.loop_stack = s.loop_stack ∧
    (move_right s count).1.loop_balances = s.loop_balances ∧
    (((move_left s count).1.left_mark = s.left_mark ∧
      (move_left s count).1.right_mark = s.right_mark) ↔ count = 0) ∧
    (((move_right s count).1.left_mark = s.left_mark ∧
      (move_right s count).1.right_mark = s.right_mark) ↔ count = 0) := by
  obtain ⟨l, r, st, ba⟩ := s
  refine ⟨?_, ?_, ?_, ?_, ?_, ?_, ?_, ?_, ?_, ?_, ?_, ?_⟩
  · simp only [move_left]
    split <;> simp_all
  · simp only [move_right]
    split <;> simp_all
  · simp only [move_left]
    split <;> simp
  · simp only [move_left]
    split
    · rfl
    · rfl
  · simp only [move_right]
    split <;> simp
  · simp only [move_right]
    split
    · rfl
    · rfl
  · simp only [move_left]
    split <;> simp
  · simp only [move_left]
    split <;> simp
  · simp only [move_right]
    split <;> simp
  · simp only [move_right]
    split <;> simp
  · simp only [move_left]
    split
    · show (l - count = l ∧ r + count = r) ↔ count = 0
      have key : ∀ c : Nat, ((l - c = l ∧ r + c = r) ↔ c = 0) := by
        intro c
        omega
      exact key count
    · rename_i h
      show (0 = l ∧ r + count = r) ↔ count = 0
      have key : ∀ c : Nat, ¬ c ≤ l → ((0 = l ∧ r + c = r) ↔ c = 0) := by
        intro c hc
        omega
      exact key count h
  · simp only [move_right]
    split
    · show (l + count = l ∧ r - count = r) ↔ count = 0
      have key : ∀ c : Nat, ((l + c = l ∧ r - c = r) ↔ c = 0) := by
        intro c
        omega
      exact key count
    · rename_i h
      show (l + count = l ∧ 0 = r) ↔ count = 0
      have key : ∀ c : Nat, ¬ c ≤ r → ((l + c = l ∧ 0 = r) ↔ c = 0) := by
        intro c hc
        omega
      exact key count h

/-- C8: constructing the interpreter with the analysis disabled leaves the
displacement map empty, and enter_loop on an interpreter whose displacement
map is empty resets both marks to 0 before pushing the resulting pair. -/
theorem disabled_analysis_spec (p : List Statement) (s : AbstractInterpreter)
    (index : Nat) :
    AbstractInterpreter.new p false = some ⟨0, 0, [], []⟩ ∧
    (s.loop_balances = [] →
      enter_loop s index = ⟨0, 0, (0, 0) :: s.loop_stack, []⟩) := by
  obtain ⟨l, r, st, ba⟩ := s
  constructor
  · rfl
  · intro h
    simp only at h
    subst h
    simp [enter_loop, lookupB, reset, reset_left, reset_right]

theorem disabled_analysis_spec_witness :
    AbstractInterpreter.new [Statement.Instr Instruction.In] false = some ⟨0, 0, [], []⟩ ∧
    enter_loop ⟨5, 6, [(1, 2)], []⟩ 3 = ⟨0, 0, [(0, 0), (1, 2)], []⟩ :=
  ⟨(disabled_analysis_spec [Statement.Instr Instruction.In] ⟨5, 6, [(1, 2)], []⟩ 3).1,
   (disabled_analysis_spec [Statement.Instr Instruction.In] ⟨5, 6, [(1, 2)], []⟩ 3).2 rfl⟩

/-- C2: enter_loop applies exactly this policy to the marks before pushing
the resulting pair onto the loop stack: absent identity resets both marks;
a balanced summary (Exact 0) leaves both unchanged; a right only summary
(RightOnly, or nonbalanced Exact d with d not negative) resets only the
right mark; symmetrically a left only summary resets only the left mark;
an Unknown summary resets both. -/
theorem enter_loop_policy_spec (s : AbstractInterpreter) (index : Nat)
    (b : LoopBalance) :
    (lookupB index s.loop_balances = none →
      enter_loop s index = ⟨0, 0, (0, 0) :: s.loop_stack, s.loop_balances⟩) ∧
    (lookupB index s.loop_balances = some (LoopBalance.Exact 0) →
      enter_loop s index =
        ⟨s.left_mark, s.right_mark,
          (s.left_mark, s.right_mark) :: s.loop_stack, s.loop_balances⟩) ∧
    (lookupB index s.loop_balances = some b → b ≠ LoopBalance.Exact 0 →
      b.is_right_only = true →
      enter_loop s index =
        ⟨s.left_mark, 0, (s.left_mark, 0) :: s.loop_stack, s.loop_balances⟩) ∧
    (lookupB index s.loop_balances = some b → b ≠ LoopBalance.Exact 0 →
      b.is_right_only = false → b.is_left_only = true →
      enter_loop s index =
        ⟨0, s.right_mark, (0, s.right_mark) :: s.loop_stack, s.loop_balances⟩) ∧
    (lookupB index s.loop_balances = some LoopBalance.Unknown →
      enter_loop s index = ⟨0, 0, (0, 0) :: s.loop_stack, s.loop_balances⟩) := by
  obtain ⟨l, r, st, ba⟩ := s
  refine ⟨?_, ?_, ?_, ?_, ?_⟩
  · intro h
    simp only at h
    simp [enter_loop, h, reset, reset_left, reset_right]
  · intro h
    simp only at h
    simp [enter_loop, h, LoopBalance.is_balanced]
  · intro h hb hro
    simp only at h
    have hbal : b.is_balanced = false := by
      simp [LoopBalance.is_balanced, hb]
    simp [enter_loop, h, hbal, hro, reset_right]
  · intro h hb hro hlo
    simp only at h
    have hbal : b.is_balanced = false := by
      simp [LoopBalance.is_balanced, hb]
    simp [enter_loop, h, hbal, hro, hlo, reset_left]
  · intro h
    simp only at h
    simp [enter_loop, h, LoopBalance.is_balanced, LoopBalance.is_right_only,
      LoopBalance.is_left_only, reset, reset_left, reset_right]

theorem enter_loop_policy_spec_witness :
    enter_loop ⟨3, 4, [], []⟩ 0 = ⟨0, 0, [(0, 0)], []⟩ ∧
    enter_loop ⟨3, 4, [], [(1, LoopBalance.Exact 0)]⟩ 1 =
      ⟨3, 4, [(3, 4)], [(1, LoopBalance.Exact 0)]⟩ ∧
    enter_loop ⟨3, 4, [], [(1, LoopBalance.RightOnly)]⟩ 1 =
      ⟨3, 0, [(3, 0)], [(1, LoopBalance.RightOnly)]⟩ ∧
    enter_loop ⟨3, 4, [], [(1, LoopBalance.Exact 2)]⟩ 1 =
      ⟨3, 0, [(3, 0)], [(1, LoopBalance.Exact 2)]⟩ ∧
    enter_loop ⟨3, 4, [], [(1, LoopBalance.LeftOnly)]⟩ 1 =
      ⟨0, 4, [(0, 4)], [(1, LoopBalance.LeftOnly)]⟩ ∧
    enter_loop ⟨3, 4, [], [(1, LoopBalance.Unknown)]⟩ 1 =
      ⟨0, 0, [(0, 0)], [(1, LoopBalance.Unknown)]⟩ :=
  ⟨(enter_loop_policy_spec ⟨3, 4, [], []⟩ 0 LoopBalance.Unknown).1 (by decide),
   (enter_loop_policy_spec ⟨3, 4, [], [(1, LoopBalance.Exact 0)]⟩ 1
      LoopBalance.Unknown).2.1 (by decide),
   (enter_loop_policy_spec ⟨3, 4, [], [(1, LoopBalance.RightOnly)]⟩ 1
      LoopBalance.RightOnly).2.2.1 (by decide) (by decide) (by decide),
   (enter_loop_policy_spec ⟨3, 4, [], [(1, LoopBalance.Exact 2)]⟩ 1
      (LoopBalance.Exact 2)).2.2.1 (by decide) (by decide) (by decide),
   (enter_loop_policy_spec ⟨3, 4, [], [(1, LoopBalance.LeftOnly)]⟩ 1
      LoopBalance.LeftOnly).2.2.2.1 (by decide) (by decide) (by decide) (by decide),
   (enter_loop_policy_spec ⟨3, 4, [], [(1, LoopBalance.Unknown)]⟩ 1
      LoopBalance.Unknown).2.2.2.2 (by decide)⟩

/-- C3: leave_loop pops the most recently pushed pair and overwrites both
marks with it unconditionally; whatever sequence of move or reset calls ran
between enter_loop and its matching leave_loop, the marks after leave_loop
equal the pair that enter_loop pushed; and leave_loop on an empty loop
stack aborts fatally (modelled as none). -/
theorem leave_loop_spec (s : AbstractInterpreter) (index l r : Nat)
    (rest : List (Nat × Nat)) (ops : List MarkOp) :
    (s.loop_stack = (l, r) :: rest →
      leave_loop s = some ⟨l, r, rest, s.loop_balances⟩) ∧
    (s.loop_stack = [] → leave_loop s = none) ∧
    leave_loop (applyOps (enter_loop s index) ops) =
      some ⟨(enter_loop s index).left_mark, (enter_loop s index).right_mark,
        s.loop_stack, s.loop_balances⟩ := by
  refine ⟨?_, ?_, ?_⟩
  · exact leave_loop_of_stack s l r rest
  · intro h
    obtain ⟨a, b, st, ba⟩ := s
    simp only at h
    subst h
    rfl
  · have hstack := (applyOps_preserves ops (enter_loop s index)).1
    have hbal := (applyOps_preserves ops (enter_loop s index)).2
    have hshape := enter_loop_shape s index
    rw [leave_loop_of_stack (applyOps (enter_loop s index) ops)
      (enter_loop s index).left_mark (enter_loop s index).right_mark s.loop_stack
      (hstack.trans hshape.1)]
    rw [hbal, hshape.2]

theorem leave_loop_spec_witness :
    leave_loop ⟨1, 2, [(9, 9)], []⟩ = some ⟨9, 9, [], []⟩ ∧
    leave_loop ⟨1, 2, [], []⟩ = none ∧
    leave_loop (applyOps (enter_loop ⟨1, 2, [], []⟩ 0) [MarkOp.ml 3]) =
      some ⟨(enter_loop ⟨1, 2, [], []⟩ 0).left_mark,
        (enter_loop ⟨1, 2, [], []⟩ 0).right_mark, [], []⟩ :=
  ⟨(leave_loop_spec ⟨1, 2, [(9, 9)], []⟩ 0 9 9 [] []).1 rfl,
   (leave_loop_spec ⟨1, 2, [], []⟩ 0 9 9 [] []).2.1 rfl,
   (leave_loop_spec ⟨1, 2, [], []⟩ 0 9 9 [] [MarkOp.ml 3]).2.2⟩

/-- C4: the summarizer folds each body left to right starting from Exact 0;
MoveRight n maps Exact d to Exact (d + n), keeps RightOnly, and maps the
rest to Unknown, with MoveLeft symmetric; AddAt, ReadByte, WriteByte,
SetZero and the offset adds leave the accumulator unchanged; ScanZeroRight
yields RightOnly when the accumulator is right only (RightOnly, or Exact d
with d not negative) and Unknown otherwise, with ScanZeroLeft symmetric. -/
theorem analyze_transfer_spec :
    (∀ m ss, analyze m ss = analyzeGo m (LoopBalance.Exact 0) ss) ∧
    (∀ m d n rest, analyzeGo m (LoopBalance.Exact d)
        (Statement.Instr (Instruction.Right n) :: rest) =
      analyzeGo m (LoopBalance.Exact (d + (n : Int))) rest) ∧
    (∀ m n rest, analyzeGo m LoopBalance.RightOnly
        (Statement.Instr (Instruction.Right n) :: rest) =
      analyzeGo m LoopBalance.RightOnly rest) ∧
    (∀ m n rest, analyzeGo m LoopBalance.LeftOnly
        (Statement.Instr (Instruction.Right n) :: rest) =
      analyzeGo m LoopBalance.Unknown rest) ∧
    (∀ m n rest, analyzeGo m LoopBalance.Unknown
        (Statement.Instr (Instruction.Right n) :: rest) =
      analyzeGo m LoopBalance.Unknown rest) ∧
    (∀ m d n rest, analyzeGo m (LoopBalance.Exact d)
        (Statement.Instr (Instruction.Left n) :: rest) =
      analyzeGo m (LoopBalance.Exact (d - (n : Int))) rest) ∧
    (∀ m n rest, analyzeGo m LoopBalance.LeftOnly
        (Statement.Instr (Instruction.Left n) :: rest) =
      analyzeGo m LoopBalance.LeftOnly rest) ∧
    (∀ m n rest, analyzeGo m LoopBalance.RightOnly
        (Statement.Instr (Instruction.Left n) :: rest) =
      analyzeGo m LoopBalance.Unknown rest) ∧
    (∀ m n rest, analyzeGo m LoopBalance.Unknown
        (Statement.Instr (Instruction.Left n) :: rest) =
      analyzeGo m LoopBalance.Unknown rest) ∧
    (∀ m net a rest, analyzeGo m net (Statement.Instr (Instruction.Add a) :: rest) =
      analyzeGo m net rest) ∧
    (∀ m net rest, analyzeGo m net (Statement.Instr Instruction.In :: rest) =
      analyzeGo m net rest) ∧
    (∀ m net rest, analyzeGo m net (Statement.Instr Instruction.Out :: rest) =
      analyzeGo m net rest) ∧
    (∀ m net rest, analyzeGo m net (Statement.Instr Instruction.SetZero :: rest) =
      analyzeGo m net rest) ∧
    (∀ m net k rest, analyzeGo m net
        (Statement.Instr (Instruction.OffsetAddRight k) :: rest) =
      analyzeGo m net rest) ∧
    (∀ m net k rest, analyzeGo m net
        (Statement.Instr (Instruction.OffsetAddLeft k) :: rest) =
      analyzeGo m net rest) ∧
    (∀ m net k rest, net.is_right_only = true →
      analyzeGo m net (Statement.Instr (Instruction.FindZeroRight k) :: rest) =
        analyzeGo m LoopBalance.RightOnly rest) ∧
    (∀ m net k rest, net.is_right_only = false →
      analyzeGo m net (Statement.Instr (Instruction.FindZeroRight k) :: rest) =
        analyzeGo m LoopBalance.Unknown rest) ∧
    (∀ m net k rest, net.is_left_only = true →
      analyzeGo m net (Statement.Instr (Instruction.FindZeroLeft k) :: rest) =
        analyzeGo m LoopBalance.LeftOnly rest) ∧
    (∀ m net k rest, net.is_left_only = false →
      analyzeGo m net (Statement.Instr (Instruction.FindZeroLeft k) :: rest) =
        analyzeGo m LoopBalance.Unknown rest) ∧
    (∀ d, (LoopBalance.Exact d).is_right_only = decide (d ≥ 0)) ∧
    LoopBalance.RightOnly.is_right_only = true ∧
    LoopBalance.LeftOnly.is_right_only = false ∧
    LoopBalance.Unknown.is_right_only = false ∧
    (∀ d, (LoopBalance.Exact d).is_left_only = decide (d ≤ 0)) ∧
    LoopBalance.LeftOnly.is_left_only = true ∧
    LoopBalance.RightOnly.is_left_only = false ∧
    LoopBalance.Unknown.is_left_only = false := by
  refine ⟨fun m ss => rfl, ?_, ?_, ?_, ?_, ?_, ?_, ?_, ?_, ?_, ?_, ?_, ?_, ?_, ?_,
    ?_, ?_, ?_, ?_, fun d => rfl, rfl, rfl, rfl, fun d => rfl, rfl, rfl, rfl⟩
  · intro m d n rest
    simp [analyzeGo, transferInstr]
  · intro m n rest
    simp [analyzeGo, transferInstr]
  · intro m n rest
    simp [analyzeGo, transferInstr]
  · intro m n rest
    simp [analyzeGo, transferInstr]
  · intro m d n rest
    simp [analyzeGo, transferInstr]
  · intro m n rest
    simp [analyzeGo, transferInstr]
  · intro m n rest
    simp [analyzeGo, transferInstr]
  · intro m n rest
    simp [analyzeGo, transferInstr]
  · intro m net a rest
    simp [analyzeGo, transferInstr]
  · intro m net rest
    simp [analyzeGo, transferInstr]
  · intro m net rest
    simp [analyzeGo, transferInstr]
  · intro m net rest
    simp [analyzeGo, transferInstr]
  · intro m net k rest
    simp [analyzeGo, transferInstr]
  · intro m net k rest
    simp [analyzeGo, transferInstr]
  · intro m net k rest h
    simp [analyzeGo, transferInstr, h]
  · intro m net k rest h
    simp [analyzeGo, transferInstr, h]
  · intro m net k rest h
    simp [analyzeGo, transferInstr, h]
  · intro m net k rest h
    simp [analyzeGo, transferInstr, h]

theorem analyze_transfer_spec_witness :
    analyzeGo [] LoopBalance.RightOnly [Statement.Instr (Instruction.FindZeroRight 1)] =
      analyzeGo [] LoopBalance.RightOnly [] ∧
    analyzeGo [] LoopBalance.Unknown [Statement.Instr (Instruction.FindZeroRight 1)] =
      analyzeGo [] LoopBalance.Unknown [] ∧
    analyzeGo [] LoopBalance.LeftOnly [Statement.Instr (Instruction.FindZeroLeft 1)] =
      analyzeGo [] LoopBalance.LeftOnly [] ∧
    analyzeGo [] LoopBalance.RightOnly [Statement.Instr (Instruction.FindZeroLeft 1)] =
      analyzeGo [] LoopBalance.Unknown [] :=
  ⟨analyze_transfer_spec.2.2.2.2.2.2.2.2.2.2.2.2.2.2.2.1 [] LoopBalance.RightOnly 1 [] rfl,
   analyze_transfer_spec.2.2.2.2.2.2.2.2.2.2.2.2.2.2.2.2.1 [] LoopBalance.Unknown 1 [] rfl,
   analyze_transfer_spec.2.2.2.2.2.2.2.2.2.2.2.2.2.2.2.2.2.1 [] LoopBalance.LeftOnly 1 [] rfl,
   analyze_transfer_spec.2.2.2.2.2.2.2.2.2.2.2.2.2.2.2.2.2.2.1 [] LoopBalance.RightOnly 1 [] rfl⟩

/-- C6 counterexample: a tree whose only statement is a raw conditional
jump at the top level is summarized successfully (the top level walk skips
leaf instructions), refuting the claim that any tree containing a raw
conditional jump makes the summarizer abort. -/
theorem toplevel_jump_not_fatal :
    analyze_program [] [Statement.Instr (Instruction.JumpZero 0)] = some [] := rfl

/-- C6 amended: the summarizer aborts exactly when a raw conditional jump
occurs inside the body of some Loop node (at any depth); raw jumps outside
every loop body are skipped by the top level walk, which analyzes only
loops. -/
theorem loop_jump_fatal_iff (m : DisplacementMap) (p : List Statement) :
    analyze_program m p = none ↔ hasLoopJump p = true := by
  rw [analyze_program_eq]
  by_cases h : hasLoopJump p = true
  · simp [h]
  · simp only [Bool.not_eq_true] at h
    simp [h]

/-- C5: with the analysis enabled, construction records a balance in the
displacement map for every loop identity reachable in the program tree at
any nesting depth; and a nested loop combines with the outer accumulator
by the ordered policy: Exact d with a balanced body stays Exact d, both
right only gives RightOnly, both left only gives LeftOnly, anything else
gives Unknown. -/
theorem summarize_coverage_spec :
    (∀ p it, AbstractInterpreter.new p true = some it →
      ∀ k, k ∈ loopIds p → (lookupB k it.loop_balances).isSome = true) ∧
    (∀ d b, b.is_balanced = true →
      combineLoop (LoopBalance.Exact d) b = LoopBalance.Exact d) ∧
    (∀ nb b, (∀ d, nb = LoopBalance.Exact d → b.is_balanced = false) →
      nb.is_right_only = true → b.is_right_only = true →
      combineLoop nb b = LoopBalance.RightOnly) ∧
    (∀ nb b, (∀ d, nb = LoopBalance.Exact d → b.is_balanced = false) →
      ¬(nb.is_right_only = true ∧ b.is_right_only = true) →
      nb.is_left_only = true → b.is_left_only = true →
      combineLoop nb b = LoopBalance.LeftOnly) ∧
    (∀ nb b, (∀ d, nb = LoopBalance.Exact d → b.is_balanced = false) →
      ¬(nb.is_right_only = true ∧ b.is_right_only = true) →
      ¬(nb.is_left_only = true ∧ b.is_left_only = true) →
      combineLoop nb b = LoopBalance.Unknown) ∧
    (∀ m net index body rest,
      analyzeGo m net (Statement.Loop index body :: rest) =
        match analyzeGo m (LoopBalance.Exact 0) body with
        | none => none
        | some (m1, bodyBalance) =>
            analyzeGo (insertB m1 index bodyBalance) (combineLoop net bodyBalance) rest) := by
  refine ⟨?_, ?_, ?_, ?_, ?_, ?_⟩
  · intro p it hnew k hk
    have hmem := loopIds_mem_traceProg p k hk
    have hsome := lastVal_isSome_of_mem (traceProg p) k hmem
    simp only [AbstractInterpreter.new, if_true, analyze_program_eq] at hnew
    by_cases hlj : hasLoopJump p = true
    · rw [hlj] at hnew
      simp at hnew
    · simp only [Bool.not_eq_true] at hlj
      rw [hlj] at hnew
      simp only [Bool.false_eq_true, if_false, Option.some.injEq] at hnew
      rw [← hnew]
      simp only
      rw [lookupB_applyT]
      cases hlv : lastVal k (traceProg p) with
      | some w => simp
      | none =>
        rw [hlv] at hsome
        simp at hsome
  · intro d b hb
    simp [combineLoop, hb]
  · intro nb b h1 h2 h3
    cases nb with
    | Exact d =>
      have hbal := h1 d rfl
      simp [combineLoop, hbal, h2, h3]
    | RightOnly =>
      have hr : LoopBalance.RightOnly.is_right_only = true := rfl
      simp [combineLoop, hr, h3]
    | LeftOnly => simp [LoopBalance.is_right_only] at h2
    | Unknown => simp [LoopBalance.is_right_only] at h2
  · intro nb b h1 h2 h3 h4
    cases nb with
    | Exact d =>
      have hbal := h1 d rfl
      have hrr : ((LoopBalance.Exact d).is_right_only && b.is_right_only) = false := by
        cases hx : (LoopBalance.Exact d).is_right_only <;>
          cases hy : b.is_right_only <;> simp_all
      simp [combineLoop, hbal, hrr, h3, h4]
    | RightOnly => simp [LoopBalance.is_left_only] at h3
    | LeftOnly =>
      have hrr : (LoopBalance.LeftOnly.is_right_only && b.is_right_only) = false := by
        simp [LoopBalance.is_right_only]
      have hl : LoopBalance.LeftOnly.is_left_only = true := rfl
      simp [combineLoop, hrr, hl, h4]
    | Unknown => simp [LoopBalance.is_left_only] at h3
  · intro nb b h1 h2 h3
    have hrr : (nb.is_right_only && b.is_right_only) = false := by
      cases hx : nb.is_right_only <;> cases hy : b.is_right_only <;> simp_all
    have hll : (nb.is_left_only && b.is_left_only) = false := by
      cases hx : nb.is_left_only <;> cases hy : b.is_left_only <;> simp_all
    cases nb with
    | Exact d =>
      have hbal := h1 d rfl
      simp [combineLoop, hbal, hrr, hll]
    | RightOnly => simp [combineLoop, hrr, hll]
    | LeftOnly => simp [combineLoop, hrr, hll]
    | Unknown => simp [combineLoop, hrr, hll]
  · intro m net index body rest
    simp only [analyzeGo]

theorem summarize_coverage_spec_witness :
    (lookupB 0 [(1, LoopBalance.Exact 1), (0, LoopBalance.RightOnly)]).isSome = true ∧
    (lookupB 1 [(1, LoopBalance.Exact 1), (0, LoopBalance.RightOnly)]).isSome = true ∧
    combineLoop (LoopBalance.Exact 5) (LoopBalance.Exact 0) = LoopBalance.Exact 5 ∧
    combineLoop LoopBalance.RightOnly LoopBalance.RightOnly = LoopBalance.RightOnly ∧
    combineLoop LoopBalance.LeftOnly LoopBalance.LeftOnly = LoopBalance.LeftOnly ∧
    combineLoop LoopBalance.Unknown LoopBalance.Unknown = LoopBalance.Unknown := by
  have hnew : AbstractInterpreter.new
      [Statement.Loop 0 [Statement.Loop 1 [Statement.Instr (Instruction.Right 1)]]] true =
      some ⟨0, 0, [], [(1, LoopBalance.Exact 1), (0, LoopBalance.RightOnly)]⟩ := by
    simp [AbstractInterpreter.new, analyze_program, analyze, analyzeGo, transferInstr,
      combineLoop, insertB, LoopBalance.is_balanced, LoopBalance.is_right_only,
      LoopBalance.is_left_only]
  refine ⟨?_, ?_, ?_, ?_, ?_, ?_⟩
  · exact summarize_coverage_spec.1
      [Statement.Loop 0 [Statement.Loop 1 [Statement.Instr (Instruction.Right 1)]]]
      ⟨0, 0, [], [(1, LoopBalance.Exact 1), (0, LoopBalance.RightOnly)]⟩ hnew 0
      (by simp [loopIds])
  · exact summarize_coverage_spec.1
      [Statement.Loop 0 [Statement.Loop 1 [Statement.Instr (Instruction.Right 1)]]]
      ⟨0, 0, [], [(1, LoopBalance.Exact 1), (0, LoopBalance.RightOnly)]⟩ hnew 1
      (by simp [loopIds])
  · exact summarize_coverage_spec.2.1 5 (LoopBalance.Exact 0) (by decide)
  · exact summarize_coverage_spec.2.2.1 LoopBalance.RightOnly LoopBalance.RightOnly
      (fun d h => nomatch h) rfl rfl
  · exact summarize_coverage_spec.2.2.2.1 LoopBalance.LeftOnly LoopBalance.LeftOnly
      (fun d h => nomatch h) (by decide) rfl rfl
  · exact summarize_coverage_spec.2.2.2.2.1 LoopBalance.Unknown LoopBalance.Unknown
      (fun d h => nomatch h) (by decide) (by decide)

/-- C9: summarization is deterministic, and running the summarizer a second
time on the unchanged program, starting from the map the first run
produced, yields an identical key to displacement mapping. -/
theorem summarize_idempotent_spec (m m1 : DisplacementMap) (p : List Statement)
    (it1 it2 : AbstractInterpreter) :
    (AbstractInterpreter.new p true = some it1 →
      AbstractInterpreter.new p true = some it2 →
      it1.loop_balances = it2.loop_balances) ∧
    (analyze_program m p = some m1 →
      ∃ m2, analyze_program m1 p = some m2 ∧ mapEquiv m2 m1) := by
  constructor
  · intro h1 h2
    rw [h1] at h2
    injection h2 with h
    rw [h]
  · intro h1
    rw [analyze_program_eq] at h1
    by_cases hlj : hasLoopJump p = true
    · rw [hlj] at h1
      simp at h1
    · simp only [Bool.not_eq_true] at hlj
      rw [hlj] at h1
      simp only [Bool.false_eq_true, if_false, Option.some.injEq] at h1
      subst h1
      refine ⟨applyT (applyT m (traceProg p)) (traceProg p), ?_, ?_⟩
      · rw [analyze_program_eq, hlj]
        simp
      · intro k
        rw [lookupB_applyT]
        cases hlv : lastVal k (traceProg p) with
        | some w =>
          simp only
          rw [lookupB_applyT, hlv]
        | none => simp only

theorem summarize_idempotent_spec_witness :
    ∃ m2, analyze_program [(0, LoopBalance.Exact 1)]
        [Statement.Loop 0 [Statement.Instr (Instruction.Right 1)]] = some m2 ∧
      mapEquiv m2 [(0, LoopBalance.Exact 1)] :=
  (summarize_idempotent_spec [] [(0, LoopBalance.Exact 1)]
      [Statement.Loop 0 [Statement.Instr (Instruction.Right 1)]]
      ⟨0, 0, [], []⟩ ⟨0, 0, [], []⟩).2
    (by simp [analyze_program, analyze, analyzeGo, transferInstr, insertB])
